import Mathlib

/-!
# Verification of httpie `cliparse.py` (CLI item parsing core)

Shallow embedding of the escape-aware tokenizer, the separator resolver
(`KeyValueArgType.__call__`), the multi-value mapping (`ParamDict`), the
credential parser (`AuthCredentialsArgType`), and the item classifier
(`parse_items`) from `httpie/cliparse.py`.  Python strings are modelled as
`List Char`; Python dicts as association lists with in-place replacement;
fallible operations return `Option`/`Except`.  External collaborators
(`json.loads`, `open`, `os.path` helpers) are abstract parameters.
-/

set_option maxRecDepth 4000

namespace Httpie

/-! ## Separator constants (`cliparse.py` lines 24-34) -/

def SEP_COMMON : List Char := [':']

def SEP_HEADERS : List Char := SEP_COMMON

def SEP_DATA : List Char := ['=']

def SEP_DATA_RAW_JSON : List Char := [':', '=']

def SEP_FILES : List Char := ['@']

def SEP_QUERY : List Char := ['=', '=']

/-- The separator set handed to `KeyValueArgType` in `Parser._guess_method`
(lines 109-114): `SEP_COMMON, SEP_QUERY, SEP_DATA, SEP_DATA_RAW_JSON, SEP_FILES`. -/
def httpSeparators : List (List Char) :=
  [SEP_COMMON, SEP_QUERY, SEP_DATA, SEP_DATA_RAW_JSON, SEP_FILES]

/-! ## Tokenizer (`tokenize`, lines 229-246)

A token is either a literal fragment (built by `tokens[-1] += c`) or an
escaped single character (`Escaped(c)`). -/

inductive Token where
  | lit (s : List Char)
  | esc (c : Char)
deriving DecidableEq, Repr

/-- The decoded text a token contributes to `''.join(tokens)`:
`Escaped` is a `str` subclass holding the single character. -/
def tokenText : Token → List Char
  | Token.lit s => s
  | Token.esc c => [c]

def joinTokens (ts : List Token) : List Char :=
  (ts.map tokenText).flatten

/-- The loop body of `tokenize`: `esc` is the escape-pending flag, `cur` is
the literal fragment being built (`tokens[-1]`).  On an escaped character the
current literal is finished and `Escaped(c)` plus a fresh empty literal are
appended (`tokens.extend([Escaped(c), ''])`); a backslash sets the flag;
any other character is appended to the current literal.  At end of input the
current literal is emitted and a still-pending escape flag is discarded. -/
def tokenizeGo : List Char → Bool → List Char → List Token
  | [], _, cur => [Token.lit cur]
  | c :: rest, true, cur => Token.lit cur :: Token.esc c :: tokenizeGo rest false []
  | c :: rest, false, cur =>
    if c = '\\' then tokenizeGo rest true cur
    else tokenizeGo rest false (cur ++ [c])

/-- `tokenize(s)` from `KeyValueArgType.__call__` (lines 229-246). -/
def tokenize (s : List Char) : List Token :=
  tokenizeGo s false []

/-- Escape-flag transition of the tokenizer state machine. -/
def escStep (e : Bool) (c : Char) : Bool :=
  if e then false else decide (c = '\\')

/-- Escape flag after scanning `s` starting from flag `e`. -/
def escAfter (s : List Char) (e : Bool) : Bool :=
  s.foldl escStep e

/-- The in-progress literal fragment after scanning `s` from state `(e, cur)`. -/
def curAfter : List Char → Bool → List Char → List Char
  | [], _, cur => cur
  | _ :: rest, true, _ => curAfter rest false []
  | c :: rest, false, cur =>
    if c = '\\' then curAfter rest true cur
    else curAfter rest false (cur ++ [c])

/-- The finished tokens emitted while scanning `s` from state `(e, cur)`
(everything `tokenizeGo` outputs except the final in-progress literal). -/
def emitted : List Char → Bool → List Char → List Token
  | [], _, _ => []
  | c :: rest, true, cur => Token.lit cur :: Token.esc c :: emitted rest false []
  | c :: rest, false, cur =>
    if c = '\\' then emitted rest true cur
    else emitted rest false (cur ++ [c])

/-- Modelled from the spec: "reproduces the original string with the
backslashes removed from escaped positions and every other character kept
literally" — each backslash that starts an escape is deleted and the
character after it is kept; here a trailing lone backslash (which escapes
nothing) also gets deleted, matching the code.  Compare `specStripEscapes`. -/
def stripEscapes : List Char → List Char
  | [] => []
  | c :: rest =>
    if c = '\\' then
      match rest with
      | [] => []
      | c2 :: rest2 => c2 :: stripEscapes rest2
    else c :: stripEscapes rest

/-- `stripEscapes` specialised to a suffix that follows an escape-initiating
backslash: the first character is kept literally. -/
def stripTail : List Char → List Char
  | [] => []
  | c :: r => c :: stripEscapes r

/-- Modelled from the spec: the strict reading of the round-trip sentence and
of §4.1 ("a trailing unconsumed escape flag is treated as a literal
backslash").  Identical to `stripEscapes` except that a trailing lone
backslash is kept as a literal backslash. -/
def specStripEscapes : List Char → List Char
  | [] => []
  | c :: rest =>
    if c = '\\' then
      match rest with
      | [] => ['\\']
      | c2 :: rest2 => c2 :: specStripEscapes rest2
    else c :: specStripEscapes rest

/-! ## Separator resolver (`KeyValueArgType.__call__`, lines 248-285) -/

/-- `token.find(sep)`: position of the first occurrence of `sep` in `t`,
`none` when absent (Python returns `-1`). -/
def findSub : List Char → List Char → Option Nat
  | [], sep => if sep.isPrefixOf [] then some 0 else none
  | a :: rest, sep =>
    if sep.isPrefixOf (a :: rest) then some 0
    else (findSub rest sep).map (· + 1)

/-- `found[pos] = sep` on the `found` dict: replace the entry at key `pos`
if present, otherwise append a new entry. -/
def updateFound : List (Nat × List Char) → Nat → List Char → List (Nat × List Char)
  | [], pos, sep => [(pos, sep)]
  | (p, s) :: rest, pos, sep =>
    if p = pos then (pos, sep) :: rest else (p, s) :: updateFound rest pos sep

/-- The `for sep in separators` loop (lines 261-264): record each separator
that occurs in `t` under its first-occurrence position, later (longer)
separators overwriting earlier ones at the same position. -/
def buildFound (t : List Char) : List (List Char) → List (Nat × List Char) → List (Nat × List Char)
  | [], found => found
  | sep :: seps, found =>
    buildFound t seps
      (match findSub t sep with
       | none => found
       | some pos => updateFound found pos sep)

/-- `found[min(found.keys())]`: the entry with the smallest key. -/
def minKeyVal : List (Nat × List Char) → Option (Nat × List Char)
  | [] => none
  | e :: rest =>
    match minKeyVal rest with
    | none => some e
    | some e2 => if e.1 ≤ e2.1 then some e else some e2

/-- Stable insertion by length, ascending. -/
def insertByLen (x : List Char) : List (List Char) → List (List Char)
  | [] => [x]
  | y :: ys => if x.length ≤ y.length then x :: y :: ys else y :: insertByLen x ys

/-- `sorted(self.separators, key=len)` (line 253): a stable sort ascending
by length. -/
def sortByLen : List (List Char) → List (List Char)
  | [] => []
  | x :: xs => insertByLen x (sortByLen xs)

/-- `KeyValue` (lines 188-198). -/
structure KeyValue where
  key : List Char
  value : List Char
  sep : List Char
  orig : List Char
deriving DecidableEq, Repr

/-- The `for i, token in enumerate(tokens)` loop (lines 255-278): skip
escaped tokens; on the first literal token whose `found` dict is non-empty,
split it at the chosen separator (`token.split(sep, 1)` splits at the
separator's first occurrence) and join the surrounding tokens onto the key
and the value.  Returns `(key, value, sep)` or `none` (the for-else raise). -/
def resolveTokens (seps : List (List Char)) : List Token → Option (List Char × List Char × List Char)
  | [] => none
  | Token.esc c :: rest =>
    (resolveTokens seps rest).map (fun r => (c :: r.1, r.2.1, r.2.2))
  | Token.lit t :: rest =>
    match minKeyVal (buildFound t seps []) with
    | some (_, sep) =>
      match findSub t sep with
      | some p => some (t.take p, t.drop (p + sep.length) ++ joinTokens rest, sep)
      | none => none
    | none =>
      (resolveTokens seps rest).map (fun r => (t ++ r.1, r.2.1, r.2.2))

/-- `KeyValueArgType.__call__` (lines 215-285); `none` models the
`argparse.ArgumentTypeError` raise. -/
def KeyValueArgType.call (separators : List (List Char)) (string : List Char) : Option KeyValue :=
  match resolveTokens (sortByLen separators) (tokenize string) with
  | some (k, v, sp) => some ⟨k, v, sp, string⟩
  | none => none

/-- `sep` occurs in `t` at position `q`. -/
def occursAt (t sep : List Char) (q : Nat) : Prop :=
  sep <+: t.drop q

/-! ## Credential parser (`AuthCredentials`, `AuthCredentialsArgType`, lines 288-322) -/

/-- `AuthCredentials`: `value` is `Option` because the fallback stores
Python `None` (password to be prompted later). -/
structure AuthCredentials where
  key : List Char
  value : Option (List Char)
  sep : List Char
  orig : List Char
deriving DecidableEq, Repr

/-- `AuthCredentials.has_password` (lines 297-298): `self.value is not None`. -/
def AuthCredentials.has_password (a : AuthCredentials) : Bool :=
  a.value.isSome

/-- `AuthCredentialsArgType.__call__` (lines 312-322): try the key-value
parse; on `ArgumentTypeError` return the whole string as the key with an
absent value and separator `SEP_COMMON`. -/
def AuthCredentialsArgType.call (separators : List (List Char)) (string : List Char) : AuthCredentials :=
  match KeyValueArgType.call separators string with
  | some kv => ⟨kv.key, some kv.value, kv.sep, kv.orig⟩
  | none => ⟨string, none, SEP_COMMON, string⟩

/-! ## Values and dictionaries for `parse_items` -/

/-- An opened file handle; `name` is the attribute read back for the
basename default. -/
structure FileVal where
  name : List Char
deriving Repr

/-- Python runtime values stored in the buckets.  A JSON array decoded by
`json.loads` is an ordinary Python `list`, hence the single `vlist`
constructor serves both `ParamDict` upgrade lists and JSON arrays. -/
inductive Value where
  | str (s : List Char)
  | file (f : FileVal)
  | vlist (vs : List Value)

/-- `isinstance(x, list)`. -/
def Value.isList : Value → Bool
  | Value.vlist _ => true
  | _ => false

/-- Python `dict.__getitem__` / `in`: association-list lookup. -/
def dictGet? : List (List Char × Value) → List Char → Option Value
  | [], _ => none
  | (k2, v) :: rest, k => if k2 = k then some v else dictGet? rest k

/-- Python `dict.__setitem__` on an `OrderedDict`: replace in place if the
key is present, else append. -/
def dictSet : List (List Char × Value) → List Char → Value → List (List Char × Value)
  | [], k, v => [(k, v)]
  | (k2, v2) :: rest, k, v =>
    if k2 = k then (k2, v) :: rest else (k2, v2) :: dictSet rest k v

def lowerStr (s : List Char) : List Char :=
  s.map Char.toLower

/-- `requests.structures.CaseInsensitiveDict` lookup. -/
def ciGet? : List (List Char × Value) → List Char → Option Value
  | [], _ => none
  | (k2, v) :: rest, k => if lowerStr k2 = lowerStr k then some v else ciGet? rest k

/-- `CaseInsensitiveDict` assignment: keys compare case-insensitively, the
stored key casing is the last one written. -/
def ciSet : List (List Char × Value) → List Char → Value → List (List Char × Value)
  | [], k, v => [(k, v)]
  | (k2, v2) :: rest, k, v =>
    if lowerStr k2 = lowerStr k then (k, v) :: rest else (k2, v2) :: ciSet rest k v

/-- `ParamDict.__setitem__` (lines 325-344): first assignment stores the
value; for a present key, a non-`list` stored value is first wrapped as a
singleton list, then the new value is appended to the stored list. -/
def ParamDict.setItem (d : List (List Char × Value)) (k : List Char) (v : Value) : List (List Char × Value) :=
  match dictGet? d k with
  | none => dictSet d k v
  | some old =>
    let d2 := if old.isList then d else dictSet d k (Value.vlist [old])
    match dictGet? d2 k with
    | some (Value.vlist l) => dictSet d2 k (Value.vlist (l ++ [v]))
    | _ => d2

/-! ## Item classifier (`parse_items`, lines 347-392) -/

/-- External collaborators of `parse_items`: `json.loads` (failure is
`ValueError`, modelled `none`), `open` (failure is `IOError` carrying a
message), `os.path.expanduser` and `os.path.basename`. -/
structure Externals where
  jsonLoads : List Char → Option Value
  openFile : List Char → Except (List Char) FileVal
  expanduser : List Char → List Char
  basename : List Char → List Char

/-- The four buckets threaded through `parse_items`. -/
structure Buckets where
  headers : List (List Char × Value)
  data : List (List Char × Value)
  files : List (List Char × Value)
  params : List (List Char × Value)

def emptyBuckets : Buckets := ⟨[], [], [], []⟩

/-- Assignment into the `data` bucket: `ParamDict` when `--form` was given,
plain `OrderedDict` otherwise (`Parser._parse_items`, line 134). -/
def dataSet (form : Bool) (d : List (List Char × Value)) (k : List Char) (v : Value) : List (List Char × Value) :=
  if form then ParamDict.setItem d k v else dictSet d k v

/-- The key stored for a file item (`parse_items` lines 374-375): the item
key, defaulting to the basename of the opened handle when empty. -/
def filesKey (ext : Externals) (it : KeyValue) (f : FileVal) : List Char :=
  if it.key = [] then ext.basename f.name else it.key

/-- One iteration of the `for item in items` loop of `parse_items`
(lines 361-390): dispatch on the separator, transform the value, and write
into the selected bucket.  The duplicate-key check on lines 387-388
constructs a `ParseError` without raising it, so it has no effect and the
assignment on line 390 always proceeds. -/
def classifyStep (ext : Externals) (form : Bool) (st : Buckets) (it : KeyValue) : Except (List Char) Buckets :=
  if it.sep = SEP_HEADERS then
    Except.ok { st with headers := ciSet st.headers it.key (Value.str it.value) }
  else if it.sep = SEP_QUERY then
    Except.ok { st with params := ParamDict.setItem st.params it.key (Value.str it.value) }
  else if it.sep = SEP_FILES then
    match ext.openFile (ext.expanduser it.value) with
    | Except.error e =>
      Except.error (("Invalid argument ").data ++ it.orig ++ (". ").data ++ e)
    | Except.ok f =>
      Except.ok { st with files := dictSet st.files (filesKey ext it f) (Value.file f) }
  else if it.sep = SEP_DATA ∨ it.sep = SEP_DATA_RAW_JSON then
    if it.sep = SEP_DATA_RAW_JSON then
      match ext.jsonLoads it.value with
      | none => Except.error (it.orig ++ (" is not valid JSON").data)
      | some j => Except.ok { st with data := dataSet form st.data it.key j }
    else
      Except.ok { st with data := dataSet form st.data it.key (Value.str it.value) }
  else
    Except.error (it.orig ++ (" is not valid item").data)

/-- `parse_items` (lines 347-392) as a fold over the items; the first
`ParseError` aborts the parse. -/
def parse_items (ext : Externals) (form : Bool) : List KeyValue → Buckets → Except (List Char) Buckets
  | [], st => Except.ok st
  | it :: rest, st =>
    match classifyStep ext form st it with
    | Except.error e => Except.error e
    | Except.ok st2 => parse_items ext form rest st2

/-- A vacuous instantiation of the external collaborators, used to evaluate
the model on concrete inputs that involve no file items and no valid JSON. -/
def extNone : Externals :=
  ⟨fun _ => none, fun _ => Except.error [], id, id⟩

/-! ## Tokenizer lemmas -/

@[simp]
theorem tokenText_lit (s : List Char) : tokenText (Token.lit s) = s := rfl

@[simp]
theorem tokenText_esc (c : Char) : tokenText (Token.esc c) = [c] := rfl

@[simp]
theorem joinTokens_nil : joinTokens [] = [] := rfl

@[simp]
theorem joinTokens_cons (t : Token) (ts : List Token) :
    joinTokens (t :: ts) = tokenText t ++ joinTokens ts := by
  simp [joinTokens]

@[simp]
theorem joinTokens_append (a b : List Token) :
    joinTokens (a ++ b) = joinTokens a ++ joinTokens b := by
  simp [joinTokens]

@[simp]
theorem escAfter_nil (e : Bool) : escAfter [] e = e := rfl

theorem escAfter_cons (c : Char) (s : List Char) (e : Bool) :
    escAfter (c :: s) e = escAfter s (escStep e c) := rfl

theorem escAfter_append (xs ys : List Char) (e : Bool) :
    escAfter (xs ++ ys) e = escAfter ys (escAfter xs e) := by
  simp [escAfter, List.foldl_append]

/-- `tokenizeGo` in closed form: the emitted finished tokens followed by the
final in-progress literal. -/
theorem tokenizeGo_closed (s : List Char) : ∀ (e : Bool) (cur : List Char),
    tokenizeGo s e cur = emitted s e cur ++ [Token.lit (curAfter s e cur)] := by
  induction s with
  | nil => intro e cur; simp [tokenizeGo, emitted, curAfter]
  | cons c rest ih =>
    intro e cur
    cases e with
    | true => simp [tokenizeGo, emitted, curAfter, ih]
    | false =>
      by_cases hc : c = '\\' <;> simp [tokenizeGo, emitted, curAfter, hc, ih]

theorem emitted_append (xs : List Char) : ∀ (ys : List Char) (e : Bool) (cur : List Char),
    emitted (xs ++ ys) e cur = emitted xs e cur ++ emitted ys (escAfter xs e) (curAfter xs e cur) := by
  induction xs with
  | nil => intro ys e cur; simp [emitted, curAfter]
  | cons c rest ih =>
    intro ys e cur
    cases e with
    | true => simp [emitted, curAfter, escAfter_cons, escStep, ih]
    | false =>
      by_cases hc : c = '\\' <;>
        simp [emitted, curAfter, escAfter_cons, escStep, hc, ih]

theorem curAfter_append (xs : List Char) : ∀ (ys : List Char) (e : Bool) (cur : List Char),
    curAfter (xs ++ ys) e cur = curAfter ys (escAfter xs e) (curAfter xs e cur) := by
  induction xs with
  | nil => intro ys e cur; simp [curAfter]
  | cons c rest ih =>
    intro ys e cur
    cases e with
    | true => simp [curAfter, escAfter_cons, escStep, ih]
    | false =>
      by_cases hc : c = '\\' <;>
        simp [curAfter, escAfter_cons, escStep, hc, ih]

/-- Splitting a `tokenizeGo` run at an append boundary. -/
theorem tokenizeGo_append (xs ys : List Char) (e : Bool) (cur : List Char) :
    tokenizeGo (xs ++ ys) e cur
      = emitted xs e cur ++ tokenizeGo ys (escAfter xs e) (curAfter xs e cur) := by
  rw [tokenizeGo_closed, tokenizeGo_closed, emitted_append, curAfter_append,
    List.append_assoc]

@[simp]
theorem stripEscapes_nil : stripEscapes [] = [] := by
  rw [stripEscapes.eq_def]

theorem stripEscapes_bs (r : List Char) : stripEscapes ('\\' :: r) = stripTail r := by
  cases r <;> (rw [stripEscapes.eq_def]; simp [stripTail])

theorem stripEscapes_cons_ne (c : Char) (r : List Char) (h : c ≠ '\\') :
    stripEscapes (c :: r) = c :: stripEscapes r := by
  rw [stripEscapes.eq_def]
  simp [h]

/-- Decoded concatenation of a tokenizer run: the pending-escape flag decides
whether the head character is consumed literally. -/
theorem join_tokenizeGo_strip (s : List Char) :
    (∀ cur, joinTokens (tokenizeGo s false cur) = cur ++ stripEscapes s) ∧
    (∀ cur, joinTokens (tokenizeGo s true cur) = cur ++ stripTail s) := by
  induction s with
  | nil =>
    constructor <;> intro cur <;> simp [tokenizeGo, stripTail]
  | cons c r ih =>
    constructor
    · intro cur
      by_cases hc : c = '\\'
      · subst hc
        have h1 : tokenizeGo ('\\' :: r) false cur = tokenizeGo r true cur := by
          simp [tokenizeGo]
        rw [h1, ih.2 cur, stripEscapes_bs]
      · have h1 : tokenizeGo (c :: r) false cur = tokenizeGo r false (cur ++ [c]) := by
          simp [tokenizeGo, hc]
        rw [h1, ih.1 (cur ++ [c]), stripEscapes_cons_ne c r hc]
        simp
    · intro cur
      have h1 : tokenizeGo (c :: r) true cur
          = Token.lit cur :: Token.esc c :: tokenizeGo r false [] := rfl
      rw [h1]
      simp [stripTail, ih.1 []]

/-- Decoded concatenation of the emitted tokens plus the pending literal. -/
theorem join_emitted_strip (s : List Char) (cur : List Char) :
    joinTokens (emitted s false cur) ++ curAfter s false cur = cur ++ stripEscapes s := by
  have h := (join_tokenizeGo_strip s).1 cur
  rw [tokenizeGo_closed] at h
  simpa using h

/-- A string not ending in a backslash leaves no pending escape. -/
theorem escAfter_of_getLast (u : List Char) (h : u.getLast? ≠ some '\\') :
    escAfter u false = false := by
  rcases List.eq_nil_or_concat u with rfl | ⟨ys, a, rfl⟩
  · rfl
  · have ha : a ≠ '\\' := by
      intro hEq
      exact h (by simp [hEq])
    rw [List.concat_eq_append, escAfter_append]
    cases hb : escAfter ys false <;> simp [escAfter, escStep, ha]

/-! ## Claims C5 and C6: trailing backslash, round-trip -/

/-- C5 counterexample: on input `a\` the tokenizer emits only the fragment
`a`; the trailing lone backslash appears in no fragment at all, so it is not
"treated as a literal backslash character in the final fragment". -/
theorem claim_C5_counterexample :
    tokenize ['a', '\\'] = [Token.lit ['a']] ∧ '\\' ∉ joinTokens (tokenize ['a', '\\']) := by
  decide

/-- C5 (amended): for every input string that ends in a lone (unescaped)
backslash, the tokenizer silently drops that trailing backslash — the token
stream is exactly that of the input without it — and no error is raised. -/
theorem claim_C5_thm (u : List Char) (h : escAfter u false = false) :
    tokenize (u ++ ['\\']) = tokenize u := by
  unfold tokenize
  rw [tokenizeGo_append, h]
  have h1 : tokenizeGo ['\\'] false (curAfter u false [])
      = [Token.lit (curAfter u false [])] := by
    simp [tokenizeGo]
  rw [h1, ← tokenizeGo_closed]

/-- Witness for C5 (amended) at `u = "a"`. -/
theorem claim_C5_witness :
    escAfter ['a'] false = false ∧ tokenize (['a'] ++ ['\\']) = tokenize ['a'] :=
  ⟨by decide, claim_C5_thm ['a'] (by decide)⟩

/-- C6 counterexample: on the input consisting of a single backslash, the
reassembled fragments give the empty string, while the claim (backslashes
removed only from escaped positions, every other character kept literally,
with a trailing lone backslash literal per §4.1) expects `\`. -/
theorem claim_C6_counterexample :
    joinTokens (tokenize ['\\']) = [] ∧ specStripEscapes ['\\'] = ['\\'] ∧
      joinTokens (tokenize ['\\']) ≠ specStripEscapes ['\\'] := by
  decide

/-- C6 (amended): tokenizing and reassembling all fragments in order (escaped
fragments decoded to their single character) reproduces the original string
with every escape-initiating backslash removed — including a trailing lone
backslash, which is dropped — and every other character kept literally. -/
theorem claim_C6_thm (s : List Char) : joinTokens (tokenize s) = stripEscapes s := by
  simpa using (join_tokenizeGo_strip s).1 []

/-! ## Backslash-run lemmas for claim C2 -/

theorem escAfter_replicate (n : Nat) :
    escAfter (List.replicate n '\\') false = decide (n % 2 = 1) ∧
    escAfter (List.replicate n '\\') true = decide (n % 2 = 0) := by
  induction n with
  | zero => simp
  | succ m ih =>
    have hf : escStep false '\\' = true := by simp [escStep]
    have ht : escStep true '\\' = false := by simp [escStep]
    constructor
    · rw [List.replicate_succ, escAfter_cons, hf, ih.2]
      by_cases hm : m % 2 = 0
      · have h1 : (m + 1) % 2 = 1 := by omega
        simp [hm, h1]
      · have h1 : (m + 1) % 2 = 0 := by omega
        simp [hm, h1]
    · rw [List.replicate_succ, escAfter_cons, ht, ih.1]
      by_cases hm : m % 2 = 1
      · have h1 : (m + 1) % 2 = 0 := by omega
        simp [hm, h1]
      · have h1 : (m + 1) % 2 = 1 := by omega
        simp [hm, h1]

theorem strip_replicate (n : Nat) :
    stripEscapes (List.replicate n '\\') = List.replicate (n / 2) '\\' := by
  induction n using Nat.strong_induction_on with
  | _ n ih =>
    match n with
    | 0 => simp
    | 1 =>
      rw [show List.replicate 1 '\\' = ['\\'] from rfl, stripEscapes_bs]
      simp [stripTail]
    | m + 2 =>
      rw [List.replicate_succ, List.replicate_succ, stripEscapes_bs]
      rw [show stripTail ('\\' :: List.replicate m '\\')
          = '\\' :: stripEscapes (List.replicate m '\\') from rfl]
      rw [ih m (by omega)]
      have h2 : (m + 2) / 2 = m / 2 + 1 := by omega
      rw [h2, List.replicate_succ]

theorem tokenizeGo_true_head (r : List Char) (cur : List Char) :
    ∃ post, tokenizeGo r true cur = Token.lit cur :: post := by
  cases r
  · exact ⟨[], rfl⟩
  · exact ⟨_, rfl⟩

theorem tokenizeGo_false_head (r : List Char) : ∀ cur : List Char,
    ∃ w post, tokenizeGo r false cur = Token.lit (cur ++ w) :: post := by
  induction r with
  | nil => intro cur; exact ⟨[], [], by simp [tokenizeGo]⟩
  | cons c rr ih =>
    intro cur
    by_cases hc : c = '\\'
    · subst hc
      have h1 : tokenizeGo ('\\' :: rr) false cur = tokenizeGo rr true cur := by
        simp [tokenizeGo]
      obtain ⟨post, hp⟩ := tokenizeGo_true_head rr cur
      exact ⟨[], post, by rw [h1, hp]; simp⟩
    · have h1 : tokenizeGo (c :: rr) false cur = tokenizeGo rr false (cur ++ [c]) := by
        simp [tokenizeGo, hc]
      obtain ⟨w, post, hp⟩ := ih (cur ++ [c])
      exact ⟨c :: w, post, by rw [h1, hp]; simp⟩

/-! ## Claim C2: backslash parity decides separator eligibility -/

/-- C2: in `u ++ n backslashes ++ c :: rest` (with the backslash run maximal
and `c` not a backslash), an odd run puts `c` into an escaped fragment — which
separator matching skips, `resolveTokens` never inspecting `Token.esc`
contents — while an even run leaves `c` inside a literal fragment, hence
eligible; in both cases the decoded text before `c` shows each backslash pair
collapsed to one literal backslash (`n / 2` of them). -/
theorem claim_C2 (u rest : List Char) (n : Nat) (c : Char)
    (hu : u.getLast? ≠ some '\\') (hc : c ≠ '\\') :
    (n % 2 = 1 →
      ∃ pre cur,
        tokenize (u ++ List.replicate n '\\' ++ c :: rest)
          = pre ++ Token.lit cur :: Token.esc c :: tokenizeGo rest false []
        ∧ joinTokens (pre ++ [Token.lit cur])
          = stripEscapes u ++ List.replicate (n / 2) '\\')
    ∧ (n % 2 = 0 →
      ∃ pre cur w post,
        tokenize (u ++ List.replicate n '\\' ++ c :: rest)
          = pre ++ Token.lit (cur ++ c :: w) :: post
        ∧ joinTokens pre ++ cur
          = stripEscapes u ++ List.replicate (n / 2) '\\') := by
  have hU : escAfter u false = false := escAfter_of_getLast u hu
  have hsplit : tokenize (u ++ List.replicate n '\\' ++ c :: rest)
      = emitted u false []
        ++ (emitted (List.replicate n '\\') false (curAfter u false [])
          ++ tokenizeGo (c :: rest) (escAfter (List.replicate n '\\') false)
              (curAfter (List.replicate n '\\') false (curAfter u false []))) := by
    unfold tokenize
    rw [List.append_assoc, tokenizeGo_append, hU, tokenizeGo_append]
  have hjoin : joinTokens (emitted u false []
          ++ emitted (List.replicate n '\\') false (curAfter u false []))
        ++ curAfter (List.replicate n '\\') false (curAfter u false [])
      = stripEscapes u ++ List.replicate (n / 2) '\\' := by
    rw [joinTokens_append, List.append_assoc,
      join_emitted_strip (List.replicate n '\\') (curAfter u false []),
      strip_replicate, ← List.append_assoc]
    have hE := join_emitted_strip u []
    simp only [List.nil_append] at hE
    rw [hE]
  constructor
  · intro hodd
    have hEsc : escAfter (List.replicate n '\\') false = true := by
      rw [(escAfter_replicate n).1, hodd]
      rfl
    refine ⟨emitted u false []
        ++ emitted (List.replicate n '\\') false (curAfter u false []),
      curAfter (List.replicate n '\\') false (curAfter u false []), ?_, ?_⟩
    · rw [hsplit, hEsc]
      rw [show tokenizeGo (c :: rest) true
            (curAfter (List.replicate n '\\') false (curAfter u false []))
          = Token.lit (curAfter (List.replicate n '\\') false (curAfter u false []))
            :: Token.esc c :: tokenizeGo rest false [] from rfl]
      simp
    · simpa using hjoin
  · intro heven
    have hEsc : escAfter (List.replicate n '\\') false = false := by
      rw [(escAfter_replicate n).1]
      simp [heven]
    have hstep : tokenizeGo (c :: rest) false
          (curAfter (List.replicate n '\\') false (curAfter u false []))
        = tokenizeGo rest false
          (curAfter (List.replicate n '\\') false (curAfter u false []) ++ [c]) := by
      simp [tokenizeGo, hc]
    obtain ⟨w, post, hp⟩ := tokenizeGo_false_head rest
      (curAfter (List.replicate n '\\') false (curAfter u false []) ++ [c])
    refine ⟨emitted u false []
        ++ emitted (List.replicate n '\\') false (curAfter u false []),
      curAfter (List.replicate n '\\') false (curAfter u false []), w, post, ?_, ?_⟩
    · rw [hsplit, hEsc, hstep, hp]
      simp
    · exact hjoin

/-- Witness for C2 at `u = "a"`, one backslash, separator character `=`,
`rest = "b"` (input `a\=b`). -/
theorem claim_C2_witness :
    (1 % 2 = 1 →
      ∃ pre cur,
        tokenize (['a'] ++ List.replicate 1 '\\' ++ '=' :: ['b'])
          = pre ++ Token.lit cur :: Token.esc '=' :: tokenizeGo ['b'] false []
        ∧ joinTokens (pre ++ [Token.lit cur])
          = stripEscapes ['a'] ++ List.replicate (1 / 2) '\\')
    ∧ (1 % 2 = 0 →
      ∃ pre cur w post,
        tokenize (['a'] ++ List.replicate 1 '\\' ++ '=' :: ['b'])
          = pre ++ Token.lit (cur ++ '=' :: w) :: post
        ∧ joinTokens pre ++ cur
          = stripEscapes ['a'] ++ List.replicate (1 / 2) '\\') :=
  claim_C2 ['a'] ['b'] 1 '=' (by decide) (by decide)

/-! ## `findSub` lemmas -/

theorem findSub_some (sep : List Char) : ∀ (t : List Char) (p : Nat),
    findSub t sep = some p →
    sep <+: t.drop p ∧ ∀ q, q < p → ¬ sep <+: t.drop q := by
  intro t
  induction t with
  | nil =>
    intro p h
    rw [findSub] at h
    split at h
    · rename_i hpre
      cases h
      exact ⟨List.isPrefixOf_iff_prefix.mp hpre, fun q hq => absurd hq (by omega)⟩
    · cases h
  | cons a rest ih =>
    intro p h
    rw [findSub] at h
    split at h
    · rename_i hpre
      cases h
      exact ⟨List.isPrefixOf_iff_prefix.mp hpre, fun q hq => absurd hq (by omega)⟩
    · rename_i hpre
      rcases Option.map_eq_some'.mp h with ⟨p2, hp2, rfl⟩
      obtain ⟨h1, h2⟩ := ih p2 hp2
      refine ⟨by simpa using h1, ?_⟩
      intro q hq
      cases q with
      | zero =>
        simpa [List.isPrefixOf_iff_prefix] using hpre
      | succ q2 =>
        simpa using h2 q2 (by omega)

theorem findSub_none (sep : List Char) : ∀ (t : List Char),
    findSub t sep = none → ∀ q, ¬ sep <+: t.drop q := by
  intro t
  induction t with
  | nil =>
    intro h q
    rw [findSub] at h
    split at h
    · cases h
    · rename_i hpre
      simpa [List.isPrefixOf_iff_prefix, List.drop_nil] using hpre
  | cons a rest ih =>
    intro h q
    rw [findSub] at h
    split at h
    · cases h
    · rename_i hpre
      cases q with
      | zero => simpa [List.isPrefixOf_iff_prefix] using hpre
      | succ q2 =>
        simpa using ih (Option.map_eq_none'.mp h) q2

theorem findSub_le (sep t : List Char) (q : Nat) (h : sep <+: t.drop q) :
    ∃ p, findSub t sep = some p ∧ p ≤ q := by
  cases hf : findSub t sep with
  | none => exact absurd h (findSub_none sep t hf q)
  | some p =>
    refine ⟨p, rfl, ?_⟩
    by_contra hlt
    exact (findSub_some sep t p hf).2 q (by omega) h

/-! ## `updateFound` / `buildFound` / `minKeyVal` lemmas -/

theorem mem_updateFound_self : ∀ (f : List (Nat × List Char)) (pos : Nat) (sep : List Char),
    (pos, sep) ∈ updateFound f pos sep := by
  intro f pos sep
  induction f with
  | nil => simp [updateFound]
  | cons e rest ih =>
    obtain ⟨p, s⟩ := e
    rw [updateFound]
    split
    · exact List.mem_cons_self _ _
    · exact List.mem_cons_of_mem _ ih

theorem mem_updateFound : ∀ (f : List (Nat × List Char)) (pos : Nat) (sep : List Char)
    (q : Nat) (s : List Char), (q, s) ∈ updateFound f pos sep →
    (q, s) ∈ f ∨ (q = pos ∧ s = sep) := by
  intro f pos sep
  induction f with
  | nil =>
    intro q s h
    simp [updateFound] at h
    exact Or.inr h
  | cons e rest ih =>
    obtain ⟨p, s2⟩ := e
    intro q s h
    rw [updateFound] at h
    split at h
    · rcases List.mem_cons.mp h with h1 | h1
      · right
        simpa using h1
      · exact Or.inl (List.mem_cons_of_mem _ h1)
    · rcases List.mem_cons.mp h with h1 | h1
      · exact Or.inl (by simp [h1])
      · rcases ih q s h1 with h2 | h2
        · exact Or.inl (List.mem_cons_of_mem _ h2)
        · exact Or.inr h2

theorem mem_updateFound_ne : ∀ (f : List (Nat × List Char)) (pos : Nat) (sep : List Char)
    (q : Nat) (s : List Char), q ≠ pos → (q, s) ∈ f → (q, s) ∈ updateFound f pos sep := by
  intro f pos sep
  induction f with
  | nil => intro q s _ h; cases h
  | cons e rest ih =>
    obtain ⟨p, s2⟩ := e
    intro q s hne h
    rw [updateFound]
    rcases List.mem_cons.mp h with h1 | h1
    · obtain ⟨rfl, rfl⟩ : q = p ∧ s = s2 := by simpa using h1
      split
      · rename_i hp
        exact absurd hp hne
      · exact List.mem_cons_self _ _
    · split
      · exact List.mem_cons_of_mem _ h1
      · exact List.mem_cons_of_mem _ (ih q s hne h1)

theorem updateFound_ne_nil (f : List (Nat × List Char)) (pos : Nat) (sep : List Char) :
    updateFound f pos sep ≠ [] := by
  cases f with
  | nil => simp [updateFound]
  | cons e rest =>
    obtain ⟨p, s⟩ := e
    rw [updateFound]
    split <;> simp

theorem buildFound_mem : ∀ (seps : List (List Char)) (found : List (Nat × List Char))
    (t : List Char) (p : Nat) (s : List Char), (p, s) ∈ buildFound t seps found →
    (p, s) ∈ found ∨ (s ∈ seps ∧ findSub t s = some p) := by
  intro seps
  induction seps with
  | nil => intro found t p s h; exact Or.inl h
  | cons sep seps ih =>
    intro found t p s h
    rw [buildFound] at h
    cases hf : findSub t sep with
    | none =>
      rw [hf] at h
      rcases ih found t p s h with h1 | h1
      · exact Or.inl h1
      · exact Or.inr ⟨List.mem_cons_of_mem _ h1.1, h1.2⟩
    | some pos =>
      rw [hf] at h
      rcases ih (updateFound found pos sep) t p s h with h1 | h1
      · rcases mem_updateFound found pos sep p s h1 with h2 | h2
        · exact Or.inl h2
        · obtain ⟨rfl, rfl⟩ := h2
          exact Or.inr ⟨List.mem_cons_self _ _, hf⟩
      · exact Or.inr ⟨List.mem_cons_of_mem _ h1.1, h1.2⟩

theorem buildFound_keys_mono : ∀ (seps : List (List Char)) (found : List (Nat × List Char))
    (t : List Char) (q : Nat), (∃ s0, (q, s0) ∈ found) →
    ∃ s1, (q, s1) ∈ buildFound t seps found := by
  intro seps
  induction seps with
  | nil => intro found t q h; exact h
  | cons sep seps ih =>
    intro found t q h
    obtain ⟨s0, hs0⟩ := h
    rw [buildFound]
    cases hf : findSub t sep with
    | none => exact ih found t q ⟨s0, hs0⟩
    | some pos =>
      by_cases hq : q = pos
      · subst hq
        exact ih _ t q ⟨sep, mem_updateFound_self found q sep⟩
      · exact ih _ t q ⟨s0, mem_updateFound_ne found pos sep q s0 hq hs0⟩

theorem buildFound_complete : ∀ (seps : List (List Char)) (found : List (Nat × List Char))
    (t s : List Char) (p : Nat), s ∈ seps → findSub t s = some p →
    ∃ s1, (p, s1) ∈ buildFound t seps found := by
  intro seps
  induction seps with
  | nil => intro found t s p h; cases h
  | cons sep seps ih =>
    intro found t s p hmem hf
    rw [buildFound]
    rcases List.mem_cons.mp hmem with rfl | hmem2
    · rw [hf]
      exact buildFound_keys_mono seps _ t p ⟨s, mem_updateFound_self found p s⟩
    · cases hf2 : findSub t sep with
      | none => exact ih found t s p hmem2 hf
      | some pos => exact ih _ t s p hmem2 hf

theorem buildFound_eq_nil : ∀ (seps : List (List Char)) (found : List (Nat × List Char))
    (t : List Char), buildFound t seps found = [] →
    found = [] ∧ ∀ s ∈ seps, findSub t s = none := by
  intro seps
  induction seps with
  | nil =>
    intro found t h
    exact ⟨h, by simp⟩
  | cons sep seps ih =>
    intro found t h
    rw [buildFound] at h
    cases hf : findSub t sep with
    | none =>
      rw [hf] at h
      obtain ⟨h1, h2⟩ := ih found t h
      refine ⟨h1, ?_⟩
      intro s hs
      rcases List.mem_cons.mp hs with rfl | hs2
      · exact hf
      · exact h2 s hs2
    | some pos =>
      rw [hf] at h
      obtain ⟨h1, _⟩ := ih _ t h
      exact absurd h1 (updateFound_ne_nil found pos sep)

theorem found_unique : ∀ (f : List (Nat × List Char)),
    List.Pairwise (fun e1 e2 : Nat × List Char => e1.1 ≠ e2.1) f →
    ∀ (p : Nat) (s s2 : List Char), (p, s) ∈ f → (p, s2) ∈ f → s = s2 := by
  intro f
  induction f with
  | nil => intro _ p s s2 h1; cases h1
  | cons e rest ih =>
    intro h0 p s s2 h1 h2
    have hp0 := List.pairwise_cons.mp h0
    rcases List.mem_cons.mp h1 with he1 | he1 <;> rcases List.mem_cons.mp h2 with he2 | he2
    · rw [← he2] at he1
      exact (Prod.mk.injEq _ _ _ _ ▸ he1).2
    · exfalso
      have := hp0.1 (p, s2) he2
      rw [← he1] at this
      exact this rfl
    · exfalso
      have := hp0.1 (p, s) he1
      rw [← he2] at this
      exact this rfl
    · exact ih hp0.2 p s s2 he1 he2

theorem pairwise_updateFound : ∀ (f : List (Nat × List Char)) (pos : Nat) (sep : List Char),
    List.Pairwise (fun e1 e2 : Nat × List Char => e1.1 ≠ e2.1) f →
    List.Pairwise (fun e1 e2 : Nat × List Char => e1.1 ≠ e2.1) (updateFound f pos sep) := by
  intro f pos sep
  induction f with
  | nil => intro _; simp [updateFound]
  | cons e rest ih =>
    obtain ⟨pe, se⟩ := e
    intro h0
    have hp0 := List.pairwise_cons.mp h0
    rw [updateFound]
    split
    · rename_i hpe
      subst hpe
      exact List.pairwise_cons.mpr ⟨hp0.1, hp0.2⟩
    · rename_i hpe
      refine List.pairwise_cons.mpr ⟨?_, ih hp0.2⟩
      intro e2 he2
      obtain ⟨q2, s2⟩ := e2
      rcases mem_updateFound rest pos sep q2 s2 he2 with hm | hm
      · exact hp0.1 (q2, s2) hm
      · show pe ≠ q2
        rw [hm.1]
        exact hpe

theorem buildFound_max : ∀ (seps : List (List Char)) (found : List (Nat × List Char))
    (t : List Char),
    List.Pairwise (fun a b : List Char => a.length ≤ b.length) seps →
    (∀ p s, (p, s) ∈ found → findSub t s = some p) →
    (∀ p s, (p, s) ∈ found → ∀ s2 ∈ seps, s.length ≤ s2.length) →
    List.Pairwise (fun e1 e2 : Nat × List Char => e1.1 ≠ e2.1) found →
    ∀ p s, (p, s) ∈ buildFound t seps found →
      findSub t s = some p ∧
      ∀ s2, ((p, s2) ∈ found ∨ (s2 ∈ seps ∧ findSub t s2 = some p)) →
        s2.length ≤ s.length := by
  intro seps
  induction seps with
  | nil =>
    intro found t _ h1 _ h0 p s hmem
    refine ⟨h1 p s hmem, ?_⟩
    intro s2 hcase
    rcases hcase with hl | hr
    · exact le_of_eq (congrArg List.length (found_unique found h0 p s2 s hl hmem))
    · cases hr.1
  | cons sep seps ih =>
    intro found t hpw h1 h2 h0 p s hmem
    rw [buildFound] at hmem
    cases hf : findSub t sep with
    | none =>
      rw [hf] at hmem
      have hres := ih found t (List.pairwise_cons.mp hpw).2 h1
        (fun p2 s2 hm s3 hs3 => h2 p2 s2 hm s3 (List.mem_cons_of_mem _ hs3)) h0 p s hmem
      refine ⟨hres.1, ?_⟩
      intro s2 hcase
      rcases hcase with hl | ⟨hmem2, hf2⟩
      · exact hres.2 s2 (Or.inl hl)
      · rcases List.mem_cons.mp hmem2 with rfl | hmem3
        · rw [hf] at hf2
          cases hf2
        · exact hres.2 s2 (Or.inr ⟨hmem3, hf2⟩)
    | some pos =>
      rw [hf] at hmem
      have hpwc := List.pairwise_cons.mp hpw
      have h1' : ∀ p2 s2, (p2, s2) ∈ updateFound found pos sep → findSub t s2 = some p2 := by
        intro p2 s2 hm
        rcases mem_updateFound found pos sep p2 s2 hm with hm2 | ⟨rfl, rfl⟩
        · exact h1 p2 s2 hm2
        · exact hf
      have h2' : ∀ p2 s2, (p2, s2) ∈ updateFound found pos sep →
          ∀ s3 ∈ seps, s2.length ≤ s3.length := by
        intro p2 s2 hm s3 hs3
        rcases mem_updateFound found pos sep p2 s2 hm with hm2 | ⟨rfl, rfl⟩
        · exact h2 p2 s2 hm2 s3 (List.mem_cons_of_mem _ hs3)
        · exact hpwc.1 s3 hs3
      have h0' : List.Pairwise (fun e1 e2 : Nat × List Char => e1.1 ≠ e2.1)
          (updateFound found pos sep) := pairwise_updateFound found pos sep h0
      have hres := ih (updateFound found pos sep) t hpwc.2 h1' h2' h0' p s hmem
      refine ⟨hres.1, ?_⟩
      intro s2 hcase
      rcases hcase with hl | ⟨hmem2, hf2⟩
      · by_cases hppos : p = pos
        · subst hppos
          have hle1 : s2.length ≤ sep.length := h2 p s2 hl sep (List.mem_cons_self _ _)
          have hle2 : sep.length ≤ s.length :=
            hres.2 sep (Or.inl (mem_updateFound_self found p sep))
          omega
        · exact hres.2 s2 (Or.inl (mem_updateFound_ne found pos sep p s2 hppos hl))
      · rcases List.mem_cons.mp hmem2 with rfl | hmem3
        · have : pos = p := by
            rw [hf] at hf2
            exact (Option.some.injEq _ _ ▸ hf2)
          subst this
          exact hres.2 s2 (Or.inl (mem_updateFound_self found pos s2))
        · exact hres.2 s2 (Or.inr ⟨hmem3, hf2⟩)

theorem minKeyVal_none : ∀ (f : List (Nat × List Char)), minKeyVal f = none → f = [] := by
  intro f h
  cases f with
  | nil => rfl
  | cons e rest =>
    exfalso
    rw [minKeyVal] at h
    rcases hm : minKeyVal rest with _ | e2 <;> rw [hm] at h
    · exact Option.noConfusion h
    · have h2 : (if e.1 ≤ e2.1 then some e else some e2) = none := h
      by_cases hle : e.1 ≤ e2.1
      · rw [if_pos hle] at h2
        exact Option.noConfusion h2
      · rw [if_neg hle] at h2
        exact Option.noConfusion h2

theorem minKeyVal_mem : ∀ (f : List (Nat × List Char)) (e : Nat × List Char),
    minKeyVal f = some e → e ∈ f := by
  intro f
  induction f with
  | nil => intro e h; exact Option.noConfusion h
  | cons e2 rest ih =>
    intro e h
    rw [minKeyVal] at h
    rcases hm : minKeyVal rest with _ | e3 <;> rw [hm] at h
    · have h2 : some e2 = some e := h
      obtain rfl := Option.some.inj h2
      exact List.mem_cons_self _ _
    · have h2 : (if e2.1 ≤ e3.1 then some e2 else some e3) = some e := h
      by_cases hle : e2.1 ≤ e3.1
      · rw [if_pos hle] at h2
        obtain rfl := Option.some.inj h2
        exact List.mem_cons_self _ _
      · rw [if_neg hle] at h2
        obtain rfl := Option.some.inj h2
        exact List.mem_cons_of_mem _ (ih e3 hm)

theorem minKeyVal_le : ∀ (f : List (Nat × List Char)) (e : Nat × List Char),
    minKeyVal f = some e → ∀ e2 ∈ f, e.1 ≤ e2.1 := by
  intro f
  induction f with
  | nil => intro e h; exact Option.noConfusion h
  | cons e3 rest ih =>
    intro e h e2 hmem
    rw [minKeyVal] at h
    rcases hm : minKeyVal rest with _ | e4 <;> rw [hm] at h
    · have h2 : some e3 = some e := h
      obtain rfl := Option.some.inj h2
      rcases List.mem_cons.mp hmem with rfl | hmem2
      · exact le_refl _
      · rw [minKeyVal_none rest hm] at hmem2
        cases hmem2
    · have h2 : (if e3.1 ≤ e4.1 then some e3 else some e4) = some e := h
      by_cases hle : e3.1 ≤ e4.1
      · rw [if_pos hle] at h2
        obtain rfl := Option.some.inj h2
        rcases List.mem_cons.mp hmem with rfl | hmem2
        · exact le_refl _
        · exact le_trans hle (ih e4 hm e2 hmem2)
      · rw [if_neg hle] at h2
        obtain rfl := Option.some.inj h2
        rcases List.mem_cons.mp hmem with rfl | hmem2
        · omega
        · exact ih e4 hm e2 hmem2

/-! ## `sortByLen` lemmas -/

theorem mem_insertByLen : ∀ (l : List (List Char)) (x a : List Char),
    a ∈ insertByLen x l ↔ a = x ∨ a ∈ l := by
  intro l x
  induction l with
  | nil => intro a; simp [insertByLen]
  | cons y ys ih =>
    intro a
    rw [insertByLen]
    split
    · simp
    · rw [List.mem_cons, ih a, List.mem_cons]
      tauto

theorem mem_sortByLen : ∀ (l : List (List Char)) (a : List Char),
    a ∈ sortByLen l ↔ a ∈ l := by
  intro l
  induction l with
  | nil => intro a; simp [sortByLen]
  | cons x xs ih =>
    intro a
    rw [sortByLen, mem_insertByLen, ih, List.mem_cons]

theorem pairwise_insertByLen : ∀ (l : List (List Char)) (x : List Char),
    List.Pairwise (fun a b : List Char => a.length ≤ b.length) l →
    List.Pairwise (fun a b : List Char => a.length ≤ b.length) (insertByLen x l) := by
  intro l x
  induction l with
  | nil => intro _; simp [insertByLen]
  | cons y ys ih =>
    intro h
    have hp := List.pairwise_cons.mp h
    rw [insertByLen]
    split
    · rename_i hxy
      refine List.pairwise_cons.mpr ⟨?_, h⟩
      intro b hb
      rcases List.mem_cons.mp hb with rfl | hb2
      · exact hxy
      · exact le_trans hxy (hp.1 b hb2)
    · rename_i hxy
      refine List.pairwise_cons.mpr ⟨?_, ih hp.2⟩
      intro b hb
      rcases (mem_insertByLen ys x b).mp hb with rfl | hb2
      · omega
      · exact hp.1 b hb2

theorem pairwise_sortByLen : ∀ (l : List (List Char)),
    List.Pairwise (fun a b : List Char => a.length ≤ b.length) (sortByLen l) := by
  intro l
  induction l with
  | nil => simp [sortByLen]
  | cons x xs ih =>
    rw [sortByLen]
    exact pairwise_insertByLen _ x ih

/-! ## Soundness of the resolver loop -/

theorem resolveTokens_sound (seps : List (List Char)) : ∀ (toks : List Token) (k v sp : List Char),
    resolveTokens seps toks = some (k, v, sp) →
    ∃ pre t rest2 p,
      toks = pre ++ Token.lit t :: rest2 ∧
      (∀ t2, Token.lit t2 ∈ pre → buildFound t2 seps [] = []) ∧
      minKeyVal (buildFound t seps []) = some (p, sp) ∧
      findSub t sp = some p ∧
      k = joinTokens pre ++ t.take p ∧
      v = t.drop (p + sp.length) ++ joinTokens rest2 := by
  intro toks
  induction toks with
  | nil => intro k v sp h; exact Option.noConfusion h
  | cons tok rest ih =>
    intro k v sp h
    cases tok with
    | esc c =>
      rw [resolveTokens] at h
      rcases hr : resolveTokens seps rest with _ | r <;> rw [hr] at h
      · exact Option.noConfusion h
      · obtain ⟨k2, v2, sp2⟩ := r
        have h2 : some (c :: k2, v2, sp2) = some (k, v, sp) := h
        have h3 := Option.some.inj h2
        injection h3 with hA hB
        injection hB with hC hD
        subst hA hC hD
        obtain ⟨pre, t, rest2, p, hdec, hpre, hmin, hfind, hk, hv⟩ := ih k2 v2 sp2 hr
        refine ⟨Token.esc c :: pre, t, rest2, p, by rw [hdec]; rfl, ?_, hmin, hfind, ?_, hv⟩
        · intro t2 ht2
          rcases List.mem_cons.mp ht2 with h4 | h4
          · exact Token.noConfusion h4
          · exact hpre t2 h4
        · rw [hk]
          simp
    | lit t =>
      rw [resolveTokens] at h
      rcases hm : minKeyVal (buildFound t seps []) with _ | e <;> rw [hm] at h
      · rcases hr : resolveTokens seps rest with _ | r <;> rw [hr] at h
        · exact Option.noConfusion h
        · obtain ⟨k2, v2, sp2⟩ := r
          have h2 : some (t ++ k2, v2, sp2) = some (k, v, sp) := h
          have h3 := Option.some.inj h2
          injection h3 with hA hB
          injection hB with hC hD
          subst hA hC hD
          obtain ⟨pre, t3, rest2, p, hdec, hpre, hmin, hfind, hk, hv⟩ := ih k2 v2 sp2 hr
          refine ⟨Token.lit t :: pre, t3, rest2, p, by rw [hdec]; rfl, ?_, hmin, hfind, ?_, hv⟩
          · intro t2 ht2
            rcases List.mem_cons.mp ht2 with h4 | h4
            · obtain rfl : t = t2 := by
                injection h4 with h5
                exact h5.symm
              exact minKeyVal_none _ hm
            · exact hpre t2 h4
          · rw [hk]
            simp
      · obtain ⟨p0, sep⟩ := e
        have hred : (match findSub t sep with
            | some p => some (t.take p, t.drop (p + sep.length) ++ joinTokens rest, sep)
            | none => none) = some (k, v, sp) := h
        rcases hf : findSub t sep with _ | p <;> rw [hf] at hred
        · exact Option.noConfusion hred
        · have h2 : some (t.take p, t.drop (p + sep.length) ++ joinTokens rest, sep)
              = some (k, v, sp) := hred
          have h3 := Option.some.inj h2
          injection h3 with hA hB
          injection hB with hC hD
          subst hA hC hD
          have hp0 : p0 = p := by
            have hmemF := minKeyVal_mem _ _ hm
            rcases buildFound_mem seps [] t p0 sep hmemF with h4 | h4
            · cases h4
            · rw [h4.2] at hf
              exact Option.some.inj hf
          rw [hp0] at hm
          refine ⟨[], t, rest, p, rfl, ?_, hm, hf, by simp, rfl⟩
          intro t2 ht2
          cases ht2

/-! ## Claim C1: leftmost-then-longest separator resolution -/

/-- C1: whenever `KeyValueArgType.__call__` succeeds, the match lies in the
first literal fragment containing any candidate occurrence (all earlier
fragments are escaped or free of every candidate), at the smallest occurrence
position within that fragment; every candidate occurring at that same
position is no longer than the selected separator; and key/value are the
decoded text before/after the match. -/
theorem claim_C1 (separators : List (List Char)) (string : List Char) (kv : KeyValue)
    (h : KeyValueArgType.call separators string = some kv) :
    kv.orig = string ∧ kv.sep ∈ separators ∧
    ∃ pre t rest2 p,
      tokenize string = pre ++ Token.lit t :: rest2 ∧
      (∀ t2, Token.lit t2 ∈ pre → ∀ s ∈ separators, ∀ q, ¬ occursAt t2 s q) ∧
      occursAt t kv.sep p ∧
      (∀ s ∈ separators, ∀ q, occursAt t s q → p ≤ q) ∧
      (∀ s ∈ separators, occursAt t s p → s.length ≤ kv.sep.length) ∧
      kv.key = joinTokens pre ++ t.take p ∧
      kv.value = t.drop (p + kv.sep.length) ++ joinTokens rest2 := by
  unfold KeyValueArgType.call at h
  rcases hr : resolveTokens (sortByLen separators) (tokenize string) with _ | r <;> rw [hr] at h
  · exact Option.noConfusion h
  · obtain ⟨k2, v2, sp2⟩ := r
    have h2 : some (⟨k2, v2, sp2, string⟩ : KeyValue) = some kv := h
    obtain rfl := Option.some.inj h2
    obtain ⟨pre, t, rest2, p, hdec, hpre, hmin, hfind, hk, hv⟩ :=
      resolveTokens_sound (sortByLen separators) (tokenize string) k2 v2 sp2 hr
    have hmemF : (p, sp2) ∈ buildFound t (sortByLen separators) [] := minKeyVal_mem _ _ hmin
    have hsp_mem : sp2 ∈ separators := by
      rcases buildFound_mem _ _ _ _ _ hmemF with h3 | h3
      · cases h3
      · exact (mem_sortByLen separators sp2).mp h3.1
    refine ⟨rfl, hsp_mem, pre, t, rest2, p, hdec, ?_, ?_, ?_, ?_, hk, hv⟩
    · intro t2 ht2 s hs q
      have hbf : buildFound t2 (sortByLen separators) [] = [] := hpre t2 ht2
      have hnone : findSub t2 s = none :=
        (buildFound_eq_nil _ _ _ hbf).2 s ((mem_sortByLen separators s).mpr hs)
      exact findSub_none s t2 hnone q
    · exact (findSub_some sp2 t p hfind).1
    · intro s hs q hocc
      obtain ⟨p2, hp2, hle⟩ := findSub_le s t q hocc
      obtain ⟨s1, hs1⟩ := buildFound_complete (sortByLen separators) [] t s p2
        ((mem_sortByLen _ s).mpr hs) hp2
      have h5 : p ≤ p2 := minKeyVal_le _ _ hmin (p2, s1) hs1
      omega
    · intro s hs hocc
      obtain ⟨p2, hp2, hle⟩ := findSub_le s t p hocc
      obtain ⟨s1, hs1⟩ := buildFound_complete (sortByLen separators) [] t s p2
        ((mem_sortByLen _ s).mpr hs) hp2
      have hge : p ≤ p2 := minKeyVal_le _ _ hmin (p2, s1) hs1
      have hpp : p2 = p := by omega
      rw [hpp] at hp2
      have hmax := buildFound_max (sortByLen separators) [] t (pairwise_sortByLen separators)
        (by intro _ _ h3; cases h3) (by intro _ _ h3; cases h3) List.Pairwise.nil p sp2 hmemF
      exact hmax.2 s (Or.inr ⟨(mem_sortByLen _ s).mpr hs, hp2⟩)

/-- Witness for C1 on `a==b` with the real httpie separator set: the
resolver selects `==` (never `=`) and splits into key `a`, value `b`. -/
theorem claim_C1_witness :
    KeyValueArgType.call httpSeparators ['a', '=', '=', 'b']
      = some ⟨['a'], ['b'], ['=', '='], ['a', '=', '=', 'b']⟩ ∧
    (['a', '=', '=', 'b'] = ['a', '=', '=', 'b'] ∧ ['=', '='] ∈ httpSeparators ∧
      ∃ pre t rest2 p,
        tokenize ['a', '=', '=', 'b'] = pre ++ Token.lit t :: rest2 ∧
        (∀ t2, Token.lit t2 ∈ pre → ∀ s ∈ httpSeparators, ∀ q, ¬ occursAt t2 s q) ∧
        occursAt t ['=', '='] p ∧
        (∀ s ∈ httpSeparators, ∀ q, occursAt t s q → p ≤ q) ∧
        (∀ s ∈ httpSeparators, occursAt t s p → s.length ≤ 2) ∧
        ['a'] = joinTokens pre ++ t.take p ∧
        ['b'] = t.drop (p + 2) ++ joinTokens rest2) :=
  ⟨by decide,
   claim_C1 httpSeparators ['a', '=', '=', 'b'] ⟨['a'], ['b'], ['=', '='], ['a', '=', '=', 'b']⟩
     (by decide)⟩

/-! ## Dictionary and `ParamDict` lemmas -/

theorem dictGet?_dictSet_self : ∀ (d : List (List Char × Value)) (k : List Char) (v : Value),
    dictGet? (dictSet d k v) k = some v := by
  intro d k v
  induction d with
  | nil => simp [dictSet, dictGet?]
  | cons e rest ih =>
    obtain ⟨k2, v2⟩ := e
    rw [dictSet]
    split
    · rename_i hk
      rw [dictGet?, if_pos hk]
    · rename_i hk
      rw [dictGet?, if_neg hk]
      exact ih

theorem ciGet?_ciSet_self : ∀ (d : List (List Char × Value)) (k : List Char) (v : Value),
    ciGet? (ciSet d k v) k = some v := by
  intro d k v
  induction d with
  | nil => simp [ciSet, ciGet?]
  | cons e rest ih =>
    obtain ⟨k2, v2⟩ := e
    rw [ciSet]
    split
    · rw [ciGet?, if_pos rfl]
    · rename_i hk
      rw [ciGet?, if_neg hk]
      exact ih

theorem setItem_of_absent (d : List (List Char × Value)) (k : List Char) (v : Value)
    (h : dictGet? d k = none) : ParamDict.setItem d k v = dictSet d k v := by
  simp only [ParamDict.setItem, h]

theorem setItem_get_of_absent (d : List (List Char × Value)) (k : List Char) (v : Value)
    (h : dictGet? d k = none) : dictGet? (ParamDict.setItem d k v) k = some v := by
  rw [setItem_of_absent d k v h]
  exact dictGet?_dictSet_self d k v

theorem setItem_get_of_nonlist (d : List (List Char × Value)) (k : List Char) (v old : Value)
    (h : dictGet? d k = some old) (hl : old.isList = false) :
    dictGet? (ParamDict.setItem d k v) k = some (Value.vlist [old, v]) := by
  simp only [ParamDict.setItem, h, hl, Bool.false_eq_true, if_false, dictGet?_dictSet_self]
  simp

theorem setItem_get_of_list (d : List (List Char × Value)) (k : List Char) (v : Value)
    (l : List Value) (h : dictGet? d k = some (Value.vlist l)) :
    dictGet? (ParamDict.setItem d k v) k = some (Value.vlist (l ++ [v])) := by
  simp only [ParamDict.setItem, h, Value.isList, if_true, dictGet?_dictSet_self]

theorem setItem_fold_list : ∀ (vs : List Value) (d : List (List Char × Value))
    (k : List Char) (l : List Value),
    dictGet? d k = some (Value.vlist l) →
    dictGet? (vs.foldl (fun acc v2 => ParamDict.setItem acc k v2) d) k
      = some (Value.vlist (l ++ vs)) := by
  intro vs
  induction vs with
  | nil => intro d k l h; simpa using h
  | cons v vs ih =>
    intro d k l h
    rw [List.foldl_cons]
    have h2 := setItem_get_of_list d k v l h
    have h3 := ih (ParamDict.setItem d k v) k (l ++ [v]) h2
    simpa using h3

/-! ## Claims C7 and C10: the multi-value mapping -/

/-- C7 counterexample: when the first value stored under a key is itself a
list (here the empty list), a second assignment appends to it instead of
producing the two-element list `[prior, new]` the claim demands. -/
theorem claim_C7_counterexample :
    dictGet? (ParamDict.setItem (ParamDict.setItem [] ['k'] (Value.vlist []))
        ['k'] (Value.str ['x'])) ['k']
      = some (Value.vlist [Value.str ['x']]) ∧
    Value.vlist [Value.str ['x']] ≠ Value.vlist [Value.vlist [], Value.str ['x']] := by
  constructor
  · rfl
  · intro hEq
    injection hEq with h1
    injection h1 with h2 h3
    exact Value.noConfusion h2

/-- C7 (amended): provided the first value assigned under the key is not
itself a list, the first assignment stores it directly and every following
assignment accumulates an ordered list in assignment order: after assigning
`v1` then `vs` (non-empty), the stored entry is exactly the list
`v1 :: vs` — two elements after the second assignment, three after the third,
nothing lost. -/
theorem claim_C7_thm (d : List (List Char × Value)) (k : List Char) (v1 : Value)
    (vs : List Value) (habs : dictGet? d k = none) (hnl : v1.isList = false) :
    dictGet? (ParamDict.setItem d k v1) k = some v1 ∧
    (vs ≠ [] →
      dictGet? (vs.foldl (fun acc v2 => ParamDict.setItem acc k v2)
          (ParamDict.setItem d k v1)) k
        = some (Value.vlist (v1 :: vs))) := by
  constructor
  · exact setItem_get_of_absent d k v1 habs
  · intro hne
    obtain ⟨v2, vs2, rfl⟩ := List.exists_cons_of_ne_nil hne
    rw [List.foldl_cons]
    have h1 : dictGet? (ParamDict.setItem d k v1) k = some v1 :=
      setItem_get_of_absent d k v1 habs
    have h2 := setItem_get_of_nonlist (ParamDict.setItem d k v1) k v2 v1 h1 hnl
    have h3 := setItem_fold_list vs2 _ k [v1, v2] h2
    simpa using h3

/-- Witness for C7 (amended): assigning `"a"`, `"b"`, `"c"` under one key
yields the three-element list in assignment order. -/
theorem claim_C7_witness :
    dictGet? ([] : List (List Char × Value)) ['k'] = none ∧
    Value.isList (Value.str ['a']) = false ∧
    dictGet? (ParamDict.setItem [] ['k'] (Value.str ['a'])) ['k'] = some (Value.str ['a']) ∧
    dictGet? ([Value.str ['b'], Value.str ['c']].foldl
        (fun acc v2 => ParamDict.setItem acc ['k'] v2)
        (ParamDict.setItem [] ['k'] (Value.str ['a']))) ['k']
      = some (Value.vlist [Value.str ['a'], Value.str ['b'], Value.str ['c']]) := by
  refine ⟨rfl, rfl, ?_, ?_⟩
  · exact (claim_C7_thm [] ['k'] (Value.str ['a']) [Value.str ['b'], Value.str ['c']]
      rfl rfl).1
  · exact (claim_C7_thm [] ['k'] (Value.str ['a']) [Value.str ['b'], Value.str ['c']]
      rfl rfl).2 (by simp)

/-- C10: when the stored value under a key is already a list (for instance a
JSON array decoded by a raw-JSON item into a `ParamDict` data bucket), a
further assignment appends to that list — the prior value is not wrapped —
so the stored list grows by exactly one element. -/
theorem claim_C10 (d : List (List Char × Value)) (k : List Char) (l : List Value)
    (v : Value) (h : dictGet? d k = some (Value.vlist l)) :
    dictGet? (ParamDict.setItem d k v) k = some (Value.vlist (l ++ [v])) ∧
    (l ++ [v]).length = l.length + 1 :=
  ⟨setItem_get_of_list d k v l h, by simp⟩

/-- Witness for C10: a stored one-element list grows to two elements. -/
theorem claim_C10_witness :
    dictGet? [(['k'], Value.vlist [Value.str ['a']])] ['k']
      = some (Value.vlist [Value.str ['a']]) ∧
    (dictGet? (ParamDict.setItem [(['k'], Value.vlist [Value.str ['a']])] ['k']
        (Value.str ['b'])) ['k']
      = some (Value.vlist ([Value.str ['a']] ++ [Value.str ['b']])) ∧
    ([Value.str ['a']] ++ [Value.str ['b']]).length = [Value.str ['a']].length + 1) :=
  ⟨rfl, claim_C10 [(['k'], Value.vlist [Value.str ['a']])] ['k'] [Value.str ['a']]
    (Value.str ['b']) rfl⟩

/-! ## Claim C3: classification routes each item into exactly one bucket -/

/-- C3: a successfully classified item updates exactly one bucket, chosen by
its separator per the dispatch table (`:` → headers, `==` → params, `=` →
data, `:=` → data after JSON decoding, `@` → files), the other three buckets
unchanged; an item with any other separator makes `classifyStep` — and hence
any `parse_items` run containing it — fail with a `ParseError`. -/
theorem claim_C3 (ext : Externals) (form : Bool) (st : Buckets) (it : KeyValue) :
    (∀ st2, classifyStep ext form st it = Except.ok st2 →
      (it.sep = SEP_HEADERS ∧
        st2 = { st with headers := ciSet st.headers it.key (Value.str it.value) }) ∨
      (it.sep = SEP_QUERY ∧
        st2 = { st with params := ParamDict.setItem st.params it.key (Value.str it.value) }) ∨
      (it.sep = SEP_FILES ∧ ∃ f, ext.openFile (ext.expanduser it.value) = Except.ok f ∧
        st2 = { st with files := dictSet st.files (filesKey ext it f) (Value.file f) }) ∨
      (it.sep = SEP_DATA_RAW_JSON ∧ ∃ j, ext.jsonLoads it.value = some j ∧
        st2 = { st with data := dataSet form st.data it.key j }) ∨
      (it.sep = SEP_DATA ∧
        st2 = { st with data := dataSet form st.data it.key (Value.str it.value) })) ∧
    (it.sep ∉ [SEP_HEADERS, SEP_QUERY, SEP_DATA, SEP_DATA_RAW_JSON, SEP_FILES] →
      classifyStep ext form st it = Except.error (it.orig ++ (" is not valid item").data)) ∧
    (∀ items st0, it ∈ items →
      it.sep ∉ [SEP_HEADERS, SEP_QUERY, SEP_DATA, SEP_DATA_RAW_JSON, SEP_FILES] →
      ∃ msg, parse_items ext form items st0 = Except.error msg) := by
  have part2 : ∀ st1 : Buckets,
      it.sep ∉ [SEP_HEADERS, SEP_QUERY, SEP_DATA, SEP_DATA_RAW_JSON, SEP_FILES] →
      classifyStep ext form st1 it = Except.error (it.orig ++ (" is not valid item").data) := by
    intro st1 hnot
    simp only [List.mem_cons, List.not_mem_nil, or_false, not_or] at hnot
    obtain ⟨hh, hq, hd, hr, hf⟩ := hnot
    unfold classifyStep
    rw [if_neg hh, if_neg hq, if_neg hf,
      if_neg (show ¬(it.sep = SEP_DATA ∨ it.sep = SEP_DATA_RAW_JSON) by tauto)]
  refine ⟨?_, part2 st, ?_⟩
  · intro st2 h
    unfold classifyStep at h
    by_cases h1 : it.sep = SEP_HEADERS
    · rw [if_pos h1] at h
      exact Or.inl ⟨h1, (Except.ok.inj h).symm⟩
    · rw [if_neg h1] at h
      by_cases h2 : it.sep = SEP_QUERY
      · rw [if_pos h2] at h
        exact Or.inr (Or.inl ⟨h2, (Except.ok.inj h).symm⟩)
      · rw [if_neg h2] at h
        by_cases h3 : it.sep = SEP_FILES
        · rw [if_pos h3] at h
          refine Or.inr (Or.inr (Or.inl ⟨h3, ?_⟩))
          cases hof : ext.openFile (ext.expanduser it.value) with
          | error e =>
            rw [hof] at h
            exact Except.noConfusion h
          | ok f =>
            rw [hof] at h
            have h4 : Except.ok
                { st with files := dictSet st.files (filesKey ext it f) (Value.file f) }
              = Except.ok st2 := h
            exact ⟨f, rfl, (Except.ok.inj h4).symm⟩
        · rw [if_neg h3] at h
          by_cases h4 : it.sep = SEP_DATA ∨ it.sep = SEP_DATA_RAW_JSON
          · rw [if_pos h4] at h
            by_cases h5 : it.sep = SEP_DATA_RAW_JSON
            · rw [if_pos h5] at h
              refine Or.inr (Or.inr (Or.inr (Or.inl ⟨h5, ?_⟩)))
              cases hj : ext.jsonLoads it.value with
              | none =>
                rw [hj] at h
                exact Except.noConfusion h
              | some j =>
                rw [hj] at h
                have h6 : Except.ok { st with data := dataSet form st.data it.key j }
                  = Except.ok st2 := h
                exact ⟨j, rfl, (Except.ok.inj h6).symm⟩
            · rw [if_neg h5] at h
              have hd : it.sep = SEP_DATA := by tauto
              exact Or.inr (Or.inr (Or.inr (Or.inr ⟨hd, (Except.ok.inj h).symm⟩)))
          · rw [if_neg h4] at h
            exact Except.noConfusion h
  · intro items
    induction items with
    | nil => intro st0 hmem; cases hmem
    | cons it2 rest ih =>
      intro st0 hmem hnot
      cases hc : classifyStep ext form st0 it2 with
      | error e =>
        refine ⟨e, ?_⟩
        rw [parse_items, hc]
      | ok st2 =>
        rcases List.mem_cons.mp hmem with rfl | hmem2
        · rw [part2 st0 hnot] at hc
          exact Except.noConfusion hc
        · obtain ⟨msg, hm⟩ := ih st2 hmem2 hnot
          refine ⟨msg, ?_⟩
          rw [parse_items, hc]
          exact hm

/-- Witness for C3: an item with separator `#` is rejected by `classifyStep`
and fails the whole parse; a header item routes into the headers bucket only. -/
theorem claim_C3_witness :
    classifyStep extNone false emptyBuckets ⟨['k'], ['v'], ['#'], ['o']⟩
      = Except.error (['o'] ++ (" is not valid item").data) ∧
    (∃ msg, parse_items extNone false [⟨['k'], ['v'], ['#'], ['o']⟩] emptyBuckets
      = Except.error msg) := by
  refine ⟨?_, ?_⟩
  · exact (claim_C3 extNone false emptyBuckets ⟨['k'], ['v'], ['#'], ['o']⟩).2.1 (by decide)
  · exact (claim_C3 extNone false emptyBuckets ⟨['k'], ['v'], ['#'], ['o']⟩).2.2
      [⟨['k'], ['v'], ['#'], ['o']⟩] emptyBuckets (by decide) (by decide)

/-! ## Claim C4: duplicate keys never abort the parse -/

/-- C4: two items with the same key and the same bucket parse successfully —
the constructed duplicate-key `ParseError` is never raised or returned — and
the later assignment proceeds: in the plain-dict buckets (data without
`--form`, headers) the later value replaces the earlier one, and in the
`ParamDict` params bucket the values accumulate as a list. -/
theorem claim_C4 (ext : Externals) (st : Buckets) (k v1 v2 o1 o2 : List Char) :
    parse_items ext false [⟨k, v1, SEP_DATA, o1⟩, ⟨k, v2, SEP_DATA, o2⟩] st
      = Except.ok { st with data := dictSet (dictSet st.data k (Value.str v1)) k (Value.str v2) } ∧
    dictGet? (dictSet (dictSet st.data k (Value.str v1)) k (Value.str v2)) k
      = some (Value.str v2) ∧
    parse_items ext false [⟨k, v1, SEP_HEADERS, o1⟩, ⟨k, v2, SEP_HEADERS, o2⟩] st
      = Except.ok { st with headers := ciSet (ciSet st.headers k (Value.str v1)) k (Value.str v2) } ∧
    ciGet? (ciSet (ciSet st.headers k (Value.str v1)) k (Value.str v2)) k
      = some (Value.str v2) ∧
    parse_items ext false [⟨k, v1, SEP_QUERY, o1⟩, ⟨k, v2, SEP_QUERY, o2⟩] st
      = Except.ok ⟨st.headers, st.data, st.files,
          ParamDict.setItem (ParamDict.setItem st.params k (Value.str v1)) k (Value.str v2)⟩ ∧
    (dictGet? st.params k = none →
      dictGet? (ParamDict.setItem (ParamDict.setItem st.params k (Value.str v1)) k
          (Value.str v2)) k
        = some (Value.vlist [Value.str v1, Value.str v2])) := by
  refine ⟨?_, dictGet?_dictSet_self _ _ _, ?_, ciGet?_ciSet_self _ _ _, ?_, ?_⟩
  · simp [parse_items, classifyStep, SEP_DATA, SEP_HEADERS, SEP_QUERY, SEP_FILES,
      SEP_DATA_RAW_JSON, SEP_COMMON, dataSet]
  · simp [parse_items, classifyStep, SEP_DATA, SEP_HEADERS, SEP_QUERY, SEP_FILES,
      SEP_DATA_RAW_JSON, SEP_COMMON, dataSet]
  · simp [parse_items, classifyStep, SEP_DATA, SEP_HEADERS, SEP_QUERY, SEP_FILES,
      SEP_DATA_RAW_JSON, SEP_COMMON, dataSet]
  · intro hp
    have h1 : dictGet? (ParamDict.setItem st.params k (Value.str v1)) k
        = some (Value.str v1) := setItem_get_of_absent _ _ _ hp
    exact setItem_get_of_nonlist _ _ _ _ h1 rfl

/-- Witness for C4: concrete duplicate query items accumulate as a list. -/
theorem claim_C4_witness :
    dictGet? emptyBuckets.params ['k'] = none ∧
    dictGet? (ParamDict.setItem (ParamDict.setItem emptyBuckets.params ['k']
        (Value.str ['1'])) ['k'] (Value.str ['2'])) ['k']
      = some (Value.vlist [Value.str ['1'], Value.str ['2']]) ∧
    parse_items extNone false
        [⟨['k'], ['1'], SEP_QUERY, ['o']⟩, ⟨['k'], ['2'], SEP_QUERY, ['p']⟩] emptyBuckets
      = Except.ok ⟨emptyBuckets.headers, emptyBuckets.data, emptyBuckets.files,
          ParamDict.setItem (ParamDict.setItem emptyBuckets.params ['k']
            (Value.str ['1'])) ['k'] (Value.str ['2'])⟩ :=
  ⟨rfl,
   (claim_C4 extNone emptyBuckets ['k'] ['1'] ['2'] ['o'] ['p']).2.2.2.2.2 rfl,
   (claim_C4 extNone emptyBuckets ['k'] ['1'] ['2'] ['o'] ['p']).2.2.2.2.1⟩

/-! ## Claim C9: raw-JSON items -/

/-- C9: an item with separator `:=` stores the JSON-decoded value in the
data bucket; when decoding fails the classification — and a parse starting
with the item — fails with a `ParseError` whose message has the item's
original string as a prefix. -/
theorem claim_C9 (ext : Externals) (form : Bool) (st : Buckets) (it : KeyValue)
    (hsep : it.sep = SEP_DATA_RAW_JSON) :
    (∀ j, ext.jsonLoads it.value = some j →
      classifyStep ext form st it
        = Except.ok { st with data := dataSet form st.data it.key j }) ∧
    (ext.jsonLoads it.value = none →
      classifyStep ext form st it
        = Except.error (it.orig ++ (" is not valid JSON").data) ∧
      it.orig <+: it.orig ++ (" is not valid JSON").data ∧
      ∀ rest, parse_items ext form (it :: rest) st
        = Except.error (it.orig ++ (" is not valid JSON").data)) := by
  have hstep : classifyStep ext form st it
      = (match ext.jsonLoads it.value with
         | none => Except.error (it.orig ++ (" is not valid JSON").data)
         | some j => Except.ok { st with data := dataSet form st.data it.key j }) := by
    unfold classifyStep
    rw [hsep]
    rw [if_neg (by decide), if_neg (by decide), if_neg (by decide),
      if_pos (show SEP_DATA_RAW_JSON = SEP_DATA ∨ SEP_DATA_RAW_JSON = SEP_DATA_RAW_JSON by
        decide), if_pos rfl]
  constructor
  · intro j hj
    rw [hstep, hj]
  · intro hn
    have herr : classifyStep ext form st it
        = Except.error (it.orig ++ (" is not valid JSON").data) := by
      rw [hstep, hn]
    refine ⟨herr, ⟨(" is not valid JSON").data, rfl⟩, ?_⟩
    intro rest
    rw [parse_items, herr]

/-- Witness for C9 on the spec scenario `bad:=notjson`: the resolver yields
separator `:=`, and with a decoder that rejects `notjson` the parse fails
with a message carrying `bad:=notjson`. -/
theorem claim_C9_witness :
    KeyValueArgType.call httpSeparators (("bad:=notjson").data)
      = some ⟨("bad").data, ("notjson").data, SEP_DATA_RAW_JSON, ("bad:=notjson").data⟩ ∧
    extNone.jsonLoads (("notjson").data) = none ∧
    classifyStep extNone false emptyBuckets
        ⟨("bad").data, ("notjson").data, SEP_DATA_RAW_JSON, ("bad:=notjson").data⟩
      = Except.error (("bad:=notjson").data ++ (" is not valid JSON").data) ∧
    ("bad:=notjson").data <+: ("bad:=notjson").data ++ (" is not valid JSON").data := by
  have h := (claim_C9 extNone false emptyBuckets
    ⟨("bad").data, ("notjson").data, SEP_DATA_RAW_JSON, ("bad:=notjson").data⟩ rfl).2 rfl
  exact ⟨by decide, rfl, h.1, h.2.1⟩

/-! ## Claim C8: the credential parser fallback -/

/-- C8: when the key-value parse finds no separator, the credential parser
returns the whole string as the key, the distinct absent value (`none`, not
an empty string), and separator `:`; `has_password` is false exactly when
the value is absent. -/
theorem claim_C8 (separators : List (List Char)) (string : List Char)
    (h : KeyValueArgType.call separators string = none) :
    AuthCredentialsArgType.call separators string
      = ⟨string, none, SEP_COMMON, string⟩ ∧
    (AuthCredentialsArgType.call separators string).has_password = false ∧
    ∀ a : AuthCredentials, (a.has_password = false ↔ a.value = none) := by
  have h1 : AuthCredentialsArgType.call separators string
      = ⟨string, none, SEP_COMMON, string⟩ := by
    unfold AuthCredentialsArgType.call
    rw [h]
  refine ⟨h1, by rw [h1]; rfl, ?_⟩
  intro a
  cases hv : a.value <;> simp [AuthCredentials.has_password, hv]

/-- Witness for C8 on `user` (no separator: fallback with absent password)
and `user:pass` (separator found: password present). -/
theorem claim_C8_witness :
    KeyValueArgType.call [SEP_COMMON] ['u', 's', 'e', 'r'] = none ∧
    (AuthCredentialsArgType.call [SEP_COMMON] ['u', 's', 'e', 'r']
        = ⟨['u', 's', 'e', 'r'], none, SEP_COMMON, ['u', 's', 'e', 'r']⟩ ∧
      (AuthCredentialsArgType.call [SEP_COMMON] ['u', 's', 'e', 'r']).has_password = false ∧
      ∀ a : AuthCredentials, (a.has_password = false ↔ a.value = none)) ∧
    AuthCredentialsArgType.call [SEP_COMMON] (("user:pass").data)
      = ⟨("user").data, some (("pass").data), SEP_COMMON, ("user:pass").data⟩ :=
  ⟨by decide, claim_C8 [SEP_COMMON] ['u', 's', 'e', 'r'] (by decide), by decide⟩

end Httpie
